import Mathlib

/-!
Verification development for the heuristic CSV cleaning engine
(`clean_data.py`).  The Python source is shallowly embedded: columns are
lists of optional values, strings are lists of characters, floats are
modelled by exact rationals, and pandas / dateutil primitives are modelled
by their behaviour on the cell shapes the engine produces.
-/

namespace CleanData

/-- Whitespace characters, modelling Python's regex `\s` on ASCII input. -/
def isWs (c : Char) : Bool :=
  c = ' ' || c = '\t' || c = '\n' || c = '\r' || c = '\x0b' || c = '\x0c'

/-- Word characters, modelling Python's regex `\w` on ASCII input:
letters, digits and the underscore. -/
def isWordChar (c : Char) : Bool := c.isAlphanum || c = '_'

/-- ASCII lower-casing of a character, modelling Python's `str.lower`. -/
def toLowerChar (c : Char) : Char :=
  if 65 ≤ c.toNat ∧ c.toNat ≤ 90 then Char.ofNat (c.toNat + 32) else c

/-- ASCII upper-casing of a character, modelling Python's `str.upper`. -/
def toUpperChar (c : Char) : Char :=
  if 97 ≤ c.toNat ∧ c.toNat ≤ 122 then Char.ofNat (c.toNat - 32) else c

/-- Strip leading and trailing whitespace, modelling Python's `str.strip`. -/
def stripChars (l : List Char) : List Char :=
  ((l.dropWhile isWs).reverse.dropWhile isWs).reverse

/-- Worker for `collapseWsRuns`; the flag records whether the previous
character belonged to a whitespace run whose single space was already
emitted. -/
def collapseWsAux : Bool → List Char → List Char
  | _, [] => []
  | prevWs, c :: t =>
    if isWs c then
      if prevWs then collapseWsAux true t else ' ' :: collapseWsAux true t
    else c :: collapseWsAux false t

/-- Collapse every maximal run of whitespace to a single space, modelling
`re.sub(r"\s+", " ", ...)`. -/
def collapseWsRuns (l : List Char) : List Char := collapseWsAux false l

/-- Transformation chain of `clean_data.normalize_column_name` on the
character list: strip outer whitespace, collapse inner whitespace runs to
one space, drop characters that are neither word characters nor
whitespace, turn spaces into underscores, lower-case. -/
def normalizeNameList (l : List Char) : List Char :=
  (((collapseWsRuns (stripChars l)).filter
      (fun c => isWordChar c || isWs c)).map
      (fun c => if c = ' ' then '_' else c)).map toLowerChar

/-- Lean model of `clean_data.normalize_column_name`. -/
def normalize_column_name (name : String) : String :=
  String.mk (normalizeNameList name.toList)

lemma toLowerChar_of_upper {c : Char} (h : 65 ≤ c.toNat ∧ c.toNat ≤ 90) :
    toLowerChar c = Char.ofNat (c.toNat + 32) := by
  unfold toLowerChar
  rw [if_pos h]

lemma toLowerChar_of_not_upper {c : Char} (h : ¬(65 ≤ c.toNat ∧ c.toNat ≤ 90)) :
    toLowerChar c = c := by
  unfold toLowerChar
  rw [if_neg h]

lemma toLowerChar_isWordChar (c : Char) :
    isWordChar (toLowerChar c) = isWordChar c := by
  by_cases h : 65 ≤ c.toNat ∧ c.toNat ≤ 90
  · rw [toLowerChar_of_upper h]
    obtain ⟨n, hn⟩ : ∃ n, c.toNat = n := ⟨_, rfl⟩
    have hc : c = Char.ofNat n := by rw [← hn, Char.ofNat_toNat]
    rw [hn] at h
    rw [hn, hc]
    obtain ⟨h1, h2⟩ := h
    interval_cases n <;> decide
  · rw [toLowerChar_of_not_upper h]

lemma toLowerChar_isWs (c : Char) : isWs (toLowerChar c) = isWs c := by
  by_cases h : 65 ≤ c.toNat ∧ c.toNat ≤ 90
  · rw [toLowerChar_of_upper h]
    obtain ⟨n, hn⟩ : ∃ n, c.toNat = n := ⟨_, rfl⟩
    have hc : c = Char.ofNat n := by rw [← hn, Char.ofNat_toNat]
    rw [hn] at h
    rw [hn, hc]
    obtain ⟨h1, h2⟩ := h
    interval_cases n <;> decide
  · rw [toLowerChar_of_not_upper h]

lemma toLowerChar_idem (c : Char) :
    toLowerChar (toLowerChar c) = toLowerChar c := by
  by_cases h : 65 ≤ c.toNat ∧ c.toNat ≤ 90
  · rw [toLowerChar_of_upper h]
    obtain ⟨n, hn⟩ : ∃ n, c.toNat = n := ⟨_, rfl⟩
    rw [hn] at h
    rw [hn]
    obtain ⟨h1, h2⟩ := h
    interval_cases n <;> decide
  · rw [toLowerChar_of_not_upper h, toLowerChar_of_not_upper h]

lemma ws_not_word {c : Char} (h : isWs c = true) : isWordChar c = false := by
  simp only [isWs, Bool.or_eq_true, decide_eq_true_eq] at h
  rcases h with ((((h | h) | h) | h) | h) | h <;> subst h <;> rfl

lemma word_not_ws {c : Char} (h : isWordChar c = true) : isWs c = false := by
  cases hw : isWs c with
  | false => rfl
  | true => rw [ws_not_word hw] at h; exact absurd h (by simp)

lemma dropWhile_no_ws {l : List Char} (h : ∀ c ∈ l, isWs c = false) :
    l.dropWhile isWs = l := by
  cases l with
  | nil => rfl
  | cons c t =>
    rw [List.dropWhile_cons, h c (by simp)]
    simp

lemma strip_no_ws {l : List Char} (h : ∀ c ∈ l, isWs c = false) :
    stripChars l = l := by
  unfold stripChars
  rw [dropWhile_no_ws h,
    dropWhile_no_ws (fun c hc => h c (List.mem_reverse.mp hc)),
    List.reverse_reverse]

lemma collapseWsAux_no_ws {l : List Char} (h : ∀ c ∈ l, isWs c = false) :
    ∀ b, collapseWsAux b l = l := by
  induction l with
  | nil => intro b; rfl
  | cons c t ih =>
    intro b
    unfold collapseWsAux
    rw [if_neg (by rw [h c (by simp)]; simp)]
    rw [ih (fun c' hc' => h c' (by simp [hc']))]

lemma collapse_no_ws {l : List Char} (h : ∀ c ∈ l, isWs c = false) :
    collapseWsRuns l = l :=
  collapseWsAux_no_ws h false

lemma collapseWsAux_mem {c : Char} :
    ∀ (l : List Char) (b : Bool), c ∈ collapseWsAux b l →
      c = ' ' ∨ (c ∈ l ∧ isWs c = false) := by
  intro l
  induction l with
  | nil => intro b hc; simp [collapseWsAux] at hc
  | cons a t ih =>
    intro b hc
    unfold collapseWsAux at hc
    by_cases ha : isWs a = true
    · rw [if_pos ha] at hc
      by_cases hb : b = true
      · subst hb
        simp only [if_pos rfl] at hc
        rcases ih true hc with h' | ⟨hm, hw⟩
        · exact Or.inl h'
        · exact Or.inr ⟨List.mem_cons_of_mem _ hm, hw⟩
      · rw [if_neg hb] at hc
        rcases List.mem_cons.mp hc with h | h
        · exact Or.inl h
        · rcases ih true h with h' | ⟨hm, hw⟩
          · exact Or.inl h'
          · exact Or.inr ⟨List.mem_cons_of_mem _ hm, hw⟩
    · rw [if_neg ha] at hc
      rcases List.mem_cons.mp hc with h | h
      · subst h
        exact Or.inr ⟨by simp, by simpa using ha⟩
      · rcases ih false h with h' | ⟨hm, hw⟩
        · exact Or.inl h'
        · exact Or.inr ⟨List.mem_cons_of_mem _ hm, hw⟩

lemma collapse_mem {l : List Char} {c : Char} (hc : c ∈ collapseWsRuns l) :
    c = ' ' ∨ (c ∈ l ∧ isWs c = false) :=
  collapseWsAux_mem l false hc

lemma map_fix {α : Type} {l : List α} {f : α → α} (h : ∀ a ∈ l, f a = a) :
    l.map f = l := by
  induction l with
  | nil => rfl
  | cons a t ih =>
    simp only [List.map_cons, h a (by simp), ih (fun b hb => h b (by simp [hb]))]

/-- Every character of a normalized column name is a word character, is not
whitespace, and is fixed by lower-casing. -/
lemma normalizeNameList_chars (l : List Char) :
    ∀ c ∈ normalizeNameList l,
      isWordChar c = true ∧ isWs c = false ∧ toLowerChar c = c := by
  intro c hc
  unfold normalizeNameList at hc
  rcases List.mem_map.mp hc with ⟨e, he, hce⟩
  rcases List.mem_map.mp he with ⟨d, hd, hde⟩
  have hdmem := List.mem_filter.mp hd
  have hword : isWordChar e = true := by
    by_cases hsp : d = ' '
    · subst hsp
      simp only [if_pos rfl] at hde
      rw [← hde]; rfl
    · have hkeep := hdmem.2
      simp only [Bool.or_eq_true] at hkeep
      rcases hkeep with hw | hwss
      · rw [← hde, if_neg hsp]; exact hw
      · rcases collapse_mem hdmem.1 with h | ⟨_, hnw⟩
        · exact absurd h hsp
        · rw [hwss] at hnw; exact absurd hnw (by simp)
  subst hce
  refine ⟨by rw [toLowerChar_isWordChar]; exact hword, ?_, toLowerChar_idem e⟩
  rw [toLowerChar_isWs]
  exact word_not_ws hword

/-- The name-normalization chain fixes any character list all of whose
characters are non-whitespace word characters fixed by lower-casing. -/
lemma normalizeNameList_fix {l : List Char}
    (h : ∀ c ∈ l, isWordChar c = true ∧ isWs c = false ∧ toLowerChar c = c) :
    normalizeNameList l = l := by
  unfold normalizeNameList
  have h1 : stripChars l = l := strip_no_ws (fun c hc => (h c hc).2.1)
  have h2 : collapseWsRuns l = l := collapse_no_ws (fun c hc => (h c hc).2.1)
  have h3 : l.filter (fun c => isWordChar c || isWs c) = l :=
    List.filter_eq_self.mpr (fun c hc => by rw [(h c hc).1]; simp)
  have h4 : l.map (fun c => if c = ' ' then '_' else c) = l :=
    map_fix (fun c hc => by
      have hws := (h c hc).2.1
      have hne : c ≠ ' ' := by
        intro he; subst he; simp [isWs] at hws
      rw [if_neg hne])
  have h5 : l.map toLowerChar = l := map_fix (fun c hc => (h c hc).2.2)
  rw [h1, h2, h3, h4, h5]

/-- C9: column-name normalization is idempotent — normalizing an
already-normalized name returns it unchanged. -/
theorem normalize_column_name_idempotent (s : String) :
    normalize_column_name (normalize_column_name s) = normalize_column_name s := by
  unfold normalize_column_name
  have htl : ∀ L : List Char, (String.mk L).toList = L := fun L => rfl
  rw [htl]
  rw [normalizeNameList_fix (normalizeNameList_chars s.toList)]

end CleanData

namespace CleanData

/-- Prefix test on character lists. -/
def startsWithCL : List Char → List Char → Bool
  | _, [] => true
  | [], _ :: _ => false
  | c :: t, a :: b => c = a && startsWithCL t b

/-- Containment of `needle` as a contiguous substring, modelling Python's
`in` operator on strings. -/
def containsSub : List Char → List Char → Bool
  | [], needle => needle.isEmpty
  | c :: t, needle => startsWithCL (c :: t) needle || containsSub t needle

/-- Substring containment on strings (`needle in hay` in Python). -/
def strContains (hay needle : String) : Bool :=
  containsSub hay.toList needle.toList

/-- Null placeholder tokens of `clean_data.NULL_TOKENS`. -/
def NULL_TOKENS : List String :=
  ["", " ", "  ", "n/a", "na", "null", "none", "nil", "nan", "-", "--",
   "unknown", "?", "today", "yesterday", "tomorrow"]

/-- A string counts as a null token when its stripped, lower-cased form is
in `NULL_TOKENS` (`v.strip().lower() in NULL_TOKENS`). -/
def isNullToken (s : String) : Bool :=
  NULL_TOKENS.contains (String.mk ((stripChars s.toList).map toLowerChar))

/-- Replace every two-character literal escape `\x` (backslash followed by
`esc`) by a single space, scanning left to right without rescanning, as
Python's `str.replace` does for the patterns `"\\t"`, `"\\n"`, `"\\r"`. -/
def replaceEsc (esc : Char) : List Char → List Char
  | [] => []
  | [c] => [c]
  | c :: d :: t =>
    if c = '\\' && d = esc then ' ' :: replaceEsc esc t
    else c :: replaceEsc esc (d :: t)

/-- Lean model of `clean_data.collapse_whitespace` on strings: replace the
literal escapes `\t`, `\n`, `\r` by spaces, collapse whitespace runs,
strip. -/
def collapse_whitespace (s : String) : String :=
  String.mk (stripChars (collapseWsRuns
    (replaceEsc 'r' (replaceEsc 'n' (replaceEsc 't' s.toList)))))

/-- Euclid's algorithm with explicit fuel; `fuel = a + 1` always suffices
because the first argument strictly decreases. -/
def gcdF : Nat → Nat → Nat → Nat
  | 0, _, b => b
  | fuel + 1, a, b => if a = 0 then b else gcdF fuel (b % a) a

/-- Greatest common divisor, kernel-computable. -/
def myGcd (a b : Nat) : Nat := gcdF (a + 1) a b

/-- Exact rational number in canonical (reduced, positive-denominator)
form; used to model Python float results of the numeric parser exactly. -/
structure Frac where
  num : Int
  den : Nat
deriving DecidableEq, Repr

/-- Build the canonical fraction `n / d` (for `d ≠ 0`). -/
def mkFrac (n : Int) (d : Nat) : Frac :=
  let g := myGcd n.natAbs d
  if g = 0 then ⟨0, 1⟩ else ⟨n / g, d / g⟩

/-- Canonical embedding of a natural number. -/
def fracOfNat (n : Nat) : Frac := ⟨n, 1⟩

/-- Exact sum. -/
def fracAdd (x y : Frac) : Frac :=
  mkFrac (x.num * y.den + y.num * x.den) (x.den * y.den)

/-- Exact division by a positive natural number. -/
def fracDivNat (x : Frac) (k : Nat) : Frac := mkFrac x.num (x.den * k)

/-- Exact negation (canonical form is preserved). -/
def fracNeg (x : Frac) : Frac := ⟨-x.num, x.den⟩

/-- Calendar date produced by the date parser model. -/
structure PDate where
  year : Nat
  month : Nat
  day : Nat
deriving DecidableEq, Repr

/-- A pandas series with its dtype: raw text cells, numeric cells after a
committed numeric parse, or timestamp cells after a committed date parse.
Missing cells are `none`. -/
inductive Column where
  | textCol (cells : List (Option String))
  | numCol (cells : List (Option Frac))
  | dateCol (cells : List (Option PDate))
deriving DecidableEq, Repr

/-- Number of rows of a column. -/
def colLen : Column → Nat
  | .textCol c => c.length
  | .numCol c => c.length
  | .dateCol c => c.length

/-- Lean model of `clean_data.is_text_series`. -/
def is_text_series : Column → Bool
  | .textCol _ => true
  | _ => false

/-- The mutable report dict of `clean_data.clean_dataframe`; the
per-category counters are association lists keyed by column name. -/
structure Report where
  nulls_normalized : List (String × Nat)
  trimmed_values : List (String × Nat)
  numeric_parsed : List (String × Nat)
  ranges_normalized : List (String × Nat)
  dates_parsed : List (String × Nat)
  emails_normalized : List (String × Nat)
  phones_normalized : List (String × Nat)
  codes_normalized : List (String × Nat)
  names_normalized : List (String × Nat)
  tags_normalized : List (String × Nat)
  status_normalized : List (String × Nat)
  merged_columns : List String
  duplicate_rows_removed : Nat
deriving DecidableEq, Repr

/-- Fresh report, as initialized at the top of `clean_dataframe`. -/
def emptyReport : Report :=
  ⟨[], [], [], [], [], [], [], [], [], [], [], [], 0⟩

/-- Number of missing cells of a series (`series.isna().sum()`). -/
def countNone {α : Type} (l : List (Option α)) : Nat :=
  (l.filter (fun c => c.isNone)).length

/-- Number of cells whose value changed between two equally long series,
where a missing cell compared to a missing cell does not count
(`(before != series) & ~(before.isna() & series.isna())`). -/
def changedCount {α : Type} [DecidableEq α] (a b : List (Option α)) : Nat :=
  ((a.zip b).filter (fun p => decide (¬ p.1 = p.2))).length

/-- Lean model of `clean_data.normalize_nulls`. -/
def normalize_nulls (col : Column) (r : Report) (name : String) :
    Column × Report :=
  match col with
  | .textCol cells =>
    let cells2 := cells.map (fun c =>
      match c with
      | some s => if isNullToken s then none else some s
      | none => none)
    (.textCol cells2,
      { r with nulls_normalized :=
          r.nulls_normalized ++ [(name, countNone cells2 - countNone cells)] })
  | c =>
    (c, { r with nulls_normalized := r.nulls_normalized ++ [(name, 0)] })

/-- Lean model of `clean_data.trim_strings`. -/
def trim_strings (col : Column) (r : Report) (name : String) :
    Column × Report :=
  match col with
  | .textCol cells =>
    let cells2 := cells.map (Option.map collapse_whitespace)
    (.textCol cells2,
      { r with trimmed_values :=
          r.trimmed_values ++ [(name, changedCount cells cells2)] })
  | c => (c, r)

/-- Lean model of `clean_data.normalize_emails`. -/
def normalize_emails (col : Column) (r : Report) (name : String) :
    Column × Report :=
  match col with
  | .textCol cells =>
    if strContains name "email" then
      let cells2 := cells.map (Option.map (fun s =>
        String.mk ((collapse_whitespace s).toList.map toLowerChar)))
      (.textCol cells2,
        { r with emails_normalized :=
            r.emails_normalized ++ [(name, changedCount cells cells2)] })
    else (.textCol cells, r)
  | c => (c, r)

/-- Lean model of `clean_data.normalize_phones.clean_phone`. -/
def clean_phone (s : String) : String :=
  let digits := s.toList.filter Char.isDigit
  if 7 ≤ digits.length then String.mk digits else collapse_whitespace s

/-- Lean model of `clean_data.normalize_phones`. -/
def normalize_phones (col : Column) (r : Report) (name : String) :
    Column × Report :=
  match col with
  | .textCol cells =>
    if strContains name "phone" || strContains name "tel" then
      let cells2 := cells.map (Option.map clean_phone)
      (.textCol cells2,
        { r with phones_normalized :=
            r.phones_normalized ++ [(name, changedCount cells cells2)] })
    else (.textCol cells, r)
  | c => (c, r)

/-- Lean model of `clean_data.normalize_codes`. -/
def normalize_codes (col : Column) (r : Report) (name : String) :
    Column × Report :=
  match col with
  | .textCol cells =>
    if strContains name "currency" || strContains name "code" ||
        strContains name "iso" then
      let cells2 := cells.map (Option.map (fun s =>
        String.mk (stripChars (s.toList.map toUpperChar))))
      (.textCol cells2,
        { r with codes_normalized :=
            r.codes_normalized ++ [(name, changedCount cells cells2)] })
    else (.textCol cells, r)
  | c => (c, r)

/-- Title-casing worker; the flag records whether the previous character
was a letter, as in Python's `str.title` on ASCII input. -/
def titleAux : Bool → List Char → List Char
  | _, [] => []
  | prevAlpha, c :: t =>
    (if c.isAlpha then
      (if prevAlpha then toLowerChar c else toUpperChar c)
     else c) :: titleAux c.isAlpha t

/-- Model of Python's `str.title` on ASCII input. -/
def titleStr (s : String) : String := String.mk (titleAux false s.toList)

/-- Lean model of `clean_data.normalize_names`. -/
def normalize_names (col : Column) (r : Report) (name : String) :
    Column × Report :=
  match col with
  | .textCol cells =>
    if (strContains name "name" || strContains name "customer" ||
        strContains name "client") && !(strContains name "id") then
      let cells2 := cells.map (Option.map titleStr)
      (.textCol cells2,
        { r with names_normalized :=
            r.names_normalized ++ [(name, changedCount cells cells2)] })
    else (.textCol cells, r)
  | c => (c, r)

/-- Characters accepted by `clean_data.TAG_SEPARATORS`. -/
def isTagSep (c : Char) : Bool := c = ';' || c = ',' || c = '|' || c = '/'

/-- Split a character list at every tag separator. -/
def splitOnSeps : List Char → List (List Char)
  | [] => [[]]
  | c :: t =>
    if isTagSep c then [] :: splitOnSeps t
    else
      match splitOnSeps t with
      | h :: rest => (c :: h) :: rest
      | [] => [[c]]

/-- Lean model of `clean_data.normalize_tags.clean_tags`: split on
separators, strip and lower-case each part, drop empty parts, rejoin with
semicolons, and keep the original value when no part remains. -/
def clean_tags (s : String) : String :=
  let parts := (((splitOnSeps s.toList).map stripChars).filter
      (fun p => !p.isEmpty)).map (fun p => p.map toLowerChar)
  if parts.isEmpty then s else String.mk (List.intercalate [';'] parts)

/-- Lean model of `clean_data.normalize_tags`. -/
def normalize_tags (col : Column) (r : Report) (name : String) :
    Column × Report :=
  match col with
  | .textCol cells =>
    if strContains name "tag" || strContains name "label" ||
        strContains name "category" then
      let cells2 := cells.map (Option.map clean_tags)
      (.textCol cells2,
        { r with tags_normalized :=
            r.tags_normalized ++ [(name, changedCount cells cells2)] })
    else (.textCol cells, r)
  | c => (c, r)

/-- Lean model of `clean_data.normalize_status`. -/
def normalize_status (col : Column) (r : Report) (name : String) :
    Column × Report :=
  match col with
  | .textCol cells =>
    if strContains name "status" then
      let cells2 := cells.map (Option.map (fun s =>
        String.mk ((collapse_whitespace s).toList.map toLowerChar)))
      (.textCol cells2,
        { r with status_normalized :=
            r.status_normalized ++ [(name, changedCount cells cells2)] })
    else (.textCol cells, r)
  | c => (c, r)


end CleanData

namespace CleanData

/-- Date component separators accepted by the date regexes: `-`, `/`, `.` -/
def isDateSep (c : Char) : Bool := c = '-' || c = '/' || c = '.'

/-- Match between `lo` and `hi` characters satisfying `p`, then continue
with `k` on the rest, trying every admissible count (models a regex
counted repetition `p{lo,hi}` with backtracking). -/
def tryCounts (p : Char → Bool) (k : List Char → Bool) : Nat → Nat → List Char → Bool
  | lo, _, [] => if lo = 0 then k [] else false
  | lo, hi, c :: t =>
    if lo = 0 then
      k (c :: t) || (if 0 < hi then p c && tryCounts p k 0 (hi - 1) t else false)
    else
      p c && tryCounts p k (lo - 1) (hi - 1) t

/-- Match a possibly empty whitespace run, then continue with `k`
(models `\s*` with backtracking). -/
def wsStarThen (k : List Char → Bool) : List Char → Bool
  | [] => k []
  | c :: t => k (c :: t) || (isWs c && wsStarThen k t)

/-- Match the first date pattern at the head: four digits, a separator,
one or two digits, a separator, one or two digits. -/
def matchP1 (l : List Char) : Bool :=
  tryCounts Char.isDigit (fun r1 =>
    match r1 with
    | s1 :: r2 =>
      isDateSep s1 && tryCounts Char.isDigit (fun r3 =>
        match r3 with
        | s2 :: r4 => isDateSep s2 && tryCounts Char.isDigit (fun _ => true) 1 2 r4
        | [] => false) 1 2 r2
    | [] => false) 4 4 l

/-- Match the second date pattern at the head: one or two digits, a
separator, one or two digits, a separator, two to four digits. -/
def matchP2 (l : List Char) : Bool :=
  tryCounts Char.isDigit (fun r1 =>
    match r1 with
    | s1 :: r2 =>
      isDateSep s1 && tryCounts Char.isDigit (fun r3 =>
        match r3 with
        | s2 :: r4 => isDateSep s2 && tryCounts Char.isDigit (fun _ => true) 2 4 r4
        | [] => false) 1 2 r2
    | [] => false) 1 2 l

/-- Match the pattern `[A-Za-z]{3,9}\s+\d{1,2},\s*\d{4}` at the head. -/
def matchP3 (l : List Char) : Bool :=
  tryCounts Char.isAlpha (fun r1 =>
    match r1 with
    | c :: t =>
      isWs c && wsStarThen (fun r2 =>
        tryCounts Char.isDigit (fun r3 =>
          match r3 with
          | ',' :: r4 =>
            wsStarThen (fun r5 => tryCounts Char.isDigit (fun _ => true) 4 4 r5) r4
          | _ => false) 1 2 r2) t
    | [] => false) 3 9 l

/-- Does `f` accept some suffix of the list?  Models an unanchored regex
search as performed by `Series.str.contains`. -/
def anySuffix (f : List Char → Bool) : List Char → Bool
  | [] => f []
  | c :: t => f (c :: t) || anySuffix f t

/-- Content heuristic of `parse_dates`: the cell contains one of the three
date-like patterns. -/
def dateLike (s : String) : Bool :=
  anySuffix (fun l => matchP1 l || matchP2 l || matchP3 l) s.toList

/-- Split a character list at every character satisfying `p`. -/
def splitByPred (p : Char → Bool) : List Char → List (List Char)
  | [] => [[]]
  | c :: t =>
    if p c then [] :: splitByPred p t
    else
      match splitByPred p t with
      | h :: rest => (c :: h) :: rest
      | [] => [[c]]

/-- Numeric value of a digit run. -/
def digitsVal (l : List Char) : Nat :=
  l.foldl (fun acc c => 10 * acc + (c.toNat - 48)) 0

/-- Gregorian leap-year test, as in Python's `datetime`. -/
def isLeapYear (y : Nat) : Bool := (y % 4 = 0 && y % 100 ≠ 0) || y % 400 = 0

/-- Number of days of a month, as in Python's `datetime`. -/
def daysInMonth (y m : Nat) : Nat :=
  if m = 2 then (if isLeapYear y then 29 else 28)
  else if m = 4 || m = 6 || m = 9 || m = 11 then 30 else 31

/-- Construct a date, failing exactly when `datetime(...)` would raise for
an out-of-range component. -/
def mkDate (y m d : Nat) : Option PDate :=
  if 1 ≤ y ∧ y ≤ 9999 ∧ 1 ≤ m ∧ m ≤ 12 ∧ 1 ≤ d ∧ d ≤ daysInMonth y m then
    some ⟨y, m, d⟩
  else none

/-- Two-digit years are widened to the dateutil century convention. -/
def yearNorm (digits : List Char) : Nat :=
  let n := digitsVal digits
  if digits.length ≤ 2 then (if n < 50 then 2000 + n else 1900 + n) else n

/-- Model of `dateutil.parser.parse(s, dayfirst=...)` restricted to inputs
made of exactly three digit groups joined by `-`, `/` or `.`; every other
input fails.  A leading four-digit group is taken as the year; otherwise
the last group is the year and `dayfirst` orders the remaining two, except
that a component larger than 12 can never be the month (dateutil resolves
it as the day regardless of `dayfirst`).  Construction fails — as
`datetime` raises — when the resolved day does not exist in the resolved
month. -/
def dateutil_parse (dayfirst : Bool) (s : String) : Option PDate :=
  match splitByPred isDateSep s.toList with
  | [a, b, c] =>
    if (!a.isEmpty && !b.isEmpty && !c.isEmpty) &&
        (a.all Char.isDigit && b.all Char.isDigit && c.all Char.isDigit) then
      if a.length = 4 then
        let y := digitsVal a
        let vb := digitsVal b
        let vc := digitsVal c
        if vb ≤ 12 then mkDate y vb vc else mkDate y vc vb
      else
        let y := yearNorm c
        let va := digitsVal a
        let vb := digitsVal b
        if dayfirst then
          if vb ≤ 12 then mkDate y vb va else mkDate y va vb
        else
          if va ≤ 12 then mkDate y va vb else mkDate y vb va
    else none
  | _ => none

/-- Model of `pd.to_datetime(..., errors="coerce")` on a leftover text
cell: pandas' own parser is no more permissive than the fuzzy month-first
dateutil parse that already failed on such cells, so the model reuses the
month-first parse; unparseable text coerces to `NaT`. -/
def pd_to_datetime_str (s : String) : Option PDate := dateutil_parse false s

/-- Element of the `parsed_values` list built by `parse_dates`: a datetime
from a successful parse, `pd.NaT`, or the original text kept in a
non-forced column. -/
inductive DateCell where
  | parsed (d : PDate)
  | nat
  | raw (s : String)
deriving DecidableEq, Repr

/-- Per-cell body of the `parse_dates` loop. -/
def dateStep (force : Bool) (v : Option String) : DateCell :=
  match v with
  | none => .nat
  | some s =>
    if isNullToken s then .nat
    else
      match dateutil_parse false (collapse_whitespace s) with
      | some d => .parsed d
      | none =>
        match dateutil_parse true (collapse_whitespace s) with
        | some d => .parsed d
        | none => if force then .nat else .raw s

/-- Final coercion `pd.to_datetime(parsed_values, errors="coerce")`. -/
def dateCellFinal : DateCell → Option PDate
  | .parsed d => some d
  | .nat => none
  | .raw s => pd_to_datetime_str s

/-- Did the cell contribute to `parsed_count`? -/
def isParsedCell : DateCell → Bool
  | .parsed _ => true
  | _ => false

/-- Number of present cells of a series (`series.notna().sum()`). -/
def countSome {α : Type} (l : List (Option α)) : Nat :=
  (l.filter Option.isSome).length

/-- Name heuristic of `parse_dates`: forced date candidate. -/
def force_date (name : String) : Bool :=
  strContains name "date" || strContains name "time"

/-- Lean model of `clean_data.parse_dates`. -/
def parse_dates (col : Column) (r : Report) (name : String) :
    Column × Report :=
  match col with
  | .textCol cells =>
    let sample := (cells.filterMap id).take 200
    if sample.isEmpty then (.textCol cells, r)
    else
      let force := force_date name
      if force = false ∧
          10 * (sample.filter (fun s => dateLike s)).length <
            3 * sample.length then
        (.textCol cells, r)
      else
        let parsedValues := cells.map (dateStep force)
        let parsedCount := (parsedValues.filter isParsedCell).length
        let totalNonNull := countSome cells
        if totalNonNull = 0 then (.textCol cells, r)
        else
          let thNum : Nat := if force then 3 else 6
          if 10 * parsedCount < thNum * totalNonNull then
            (.textCol cells, r)
          else
            let parsed := parsedValues.map dateCellFinal
            (.dateCol parsed,
             { r with dates_parsed :=
                r.dates_parsed ++ [(name, countSome parsed)] })
  | c => (c, r)


end CleanData

namespace CleanData

/-- Remove every occurrence of the substring `usd`, scanning left to right
without rescanning the produced junction, as `re.sub` does. -/
def removeUsd : List Char → List Char
  | 'u' :: 's' :: 'd' :: t => removeUsd t
  | c :: t => c :: removeUsd t
  | [] => []

/-- Remove every occurrence of the substring `us$` the same way. -/
def removeUsDollar : List Char → List Char
  | 'u' :: 's' :: '$' :: t => removeUsDollar t
  | c :: t => c :: removeUsDollar t
  | [] => []

/-- Characters kept by the numeric cleaning filter: digits, comma, period,
minus, percent, parentheses. -/
def isNumKeep (c : Char) : Bool :=
  c.isDigit || c = ',' || c = '.' || c = '-' || c = '%' || c = '(' || c = ')'

/-- Index of the first occurrence of a character. -/
def firstIdxOf (c : Char) : List Char → Option Nat
  | [] => none
  | a :: t => if a = c then some 0 else (firstIdxOf c t).map (· + 1)

/-- Index of the last occurrence of a character. -/
def lastIdxOf (c : Char) (l : List Char) : Option Nat :=
  (firstIdxOf c l.reverse).map (fun i => l.length - 1 - i)

/-- Model of `re.sub(r"\((.+)\)", r"-\1", value)`: the leftmost match runs
from the first opening parenthesis to the last closing parenthesis with at
least one character between them (the group is greedy), and no further
match can start after it. -/
def parenNeg (l : List Char) : List Char :=
  match firstIdxOf '(' l, lastIdxOf ')' l with
  | some p, some q =>
    if p + 2 ≤ q then
      l.take p ++ '-' :: ((l.drop (p + 1)).take (q - p - 1)) ++ l.drop (q + 1)
    else l
  | _, _ => l

/-- Per-cell cleaning chain of `parse_numeric` (strip whitespace, `$`,
`usd`, `us$`, all characters outside the numeric set, then the
parenthesis-negative rewrite).  A missing cell stringifies to `nan` or
`None`, both of which this chain reduces to the empty string. -/
def numCleanCell : Option String → List Char
  | none => []
  | some s =>
    parenNeg ((removeUsDollar (removeUsd
      ((s.toList.filter (fun c => !isWs c)).filter
        (fun c => !(c = '$'))))).filter isNumKeep)

/-- Split a leading digit run from the rest. -/
def splitDigits (l : List Char) : List Char × List Char :=
  (l.takeWhile Char.isDigit, l.dropWhile Char.isDigit)

/-- Value of a digit run placed after the decimal point. -/
def fracVal (l : List Char) : Frac :=
  mkFrac (digitsVal l) (10 ^ l.length)

/-- Parse the regex token `\d+(\.\d+)?` at the head, returning its value
and the rest (the optional fraction group backtracks to empty when no
digit follows the period). -/
def numTok (l : List Char) : Option (Frac × List Char) :=
  let (a, r) := splitDigits l
  if a.isEmpty then none
  else
    match r with
    | '.' :: r2 =>
      let (b, r3) := splitDigits r2
      if b.isEmpty then some (fracOfNat (digitsVal a), '.' :: r2)
      else some (fracAdd (fracOfNat (digitsVal a)) (fracVal b), r3)
    | _ => some (fracOfNat (digitsVal a), r)

/-- Full match of the range shape (a number, a minus, a number) giving the
two endpoints. -/
def rangeParse (l : List Char) : Option (Frac × Frac) :=
  match numTok l with
  | some (x, '-' :: r2) =>
    match numTok r2 with
    | some (y, []) => some (x, y)
    | _ => none
  | _ => none

/-- Unsigned part of the percent shape: a number directly followed by a
final percent sign; the value is the number divided by one hundred. -/
def percentBody (l : List Char) : Option Frac :=
  match numTok l with
  | some (q, ['%']) => some (fracDivNat q 100)
  | _ => none

/-- Full match of the percent shape with an optional leading minus. -/
def percentParse (l : List Char) : Option Frac :=
  match l with
  | c :: t => if c = '-' then (percentBody t).map fracNeg else percentBody (c :: t)
  | [] => percentBody []

/-- Full match of the comma-as-decimal shape: digits, one comma, digits. -/
def commaDecShape (l : List Char) : Bool :=
  let (a, r) := splitDigits l
  match r with
  | ',' :: r2 =>
    let (b, r3) := splitDigits r2
    !a.isEmpty && !b.isEmpty && r3.isEmpty
  | _ => false

/-- Comma handling of `parse_numeric`: turn the comma of a comma-decimal
cell into a period, remove every other comma. -/
def commaFix (l : List Char) : List Char :=
  if commaDecShape l then l.map (fun c => if c = ',' then '.' else c)
  else l.filter (fun c => !(c = ','))

/-- Unsigned decimal accepted by `pd.to_numeric` on the cleaned character
set: digits with an optional fractional part, or a bare fractional part. -/
def pyFloatCore (l : List Char) : Option Frac :=
  let (a, r) := splitDigits l
  match r with
  | [] => if a.isEmpty then none else some (fracOfNat (digitsVal a))
  | '.' :: r2 =>
    let (b, r3) := splitDigits r2
    if r3.isEmpty && (!a.isEmpty || !b.isEmpty) then
      some (fracAdd (fracOfNat (digitsVal a)) (fracVal b))
    else none
  | _ => none

/-- Model of `pd.to_numeric(..., errors="coerce")` on a cleaned cell. -/
def pyFloatParse (l : List Char) : Option Frac :=
  match l with
  | c :: t => if c = '-' then (pyFloatCore t).map fracNeg else pyFloatCore (c :: t)
  | [] => pyFloatCore []

/-- Value of the `numeric_values` series after the range overwrite: a
range-shaped cell holds the mean of its endpoints, any other cell holds
its `to_numeric` parse of the comma-fixed text. -/
def numericValueCell (l : List Char) : Option Frac :=
  match rangeParse l with
  | some (x, y) => some (fracDivNat (fracAdd x y) 2)
  | none => pyFloatParse (commaFix l)

/-- Value of the committed numeric series after the percent overwrite. -/
def numericFinalCell (l : List Char) : Option Frac :=
  match percentParse l with
  | some q => some q
  | none => numericValueCell l

/-- Keywords forcing a column to the numeric parse. -/
def FORCE_NUMERIC_KEYS : List String :=
  ["price", "cost", "amount", "qty", "quantity", "tax", "discount", "total"]

/-- Name keywords that skip the numeric parse for unforced columns. -/
def TEXT_SEMANTIC_KEYS : List String :=
  ["phone", "address", "email", "name", "country", "status", "method",
   "tag", "note", "product"]

/-- Name heuristic of `parse_numeric`: forced numeric candidate. -/
def force_numeric (name : String) : Bool :=
  FORCE_NUMERIC_KEYS.any (fun k => strContains name k)

/-- Numerator of the acceptance threshold over ten (0.3 forced, 0.6
otherwise). -/
def thNumOf (name : String) : Nat := if force_numeric name then 3 else 6

/-- Number of range-shaped cleaned cells (`range_mask.sum()`). -/
def rangeCountOf (cells : List (Option String)) : Nat :=
  ((cells.map numCleanCell).filter (fun l => (rangeParse l).isSome)).length

/-- Number of cleaned cells with a numeric value after the range overwrite
(`parsed_count`). -/
def parsedCountOf (cells : List (Option String)) : Nat :=
  ((cells.map numCleanCell).filter (fun l => (numericValueCell l).isSome)).length

/-- Number of percent-shaped cleaned cells (`percent_count`). -/
def percentCountOf (cells : List (Option String)) : Nat :=
  ((cells.map numCleanCell).filter (fun l => (percentParse l).isSome)).length

/-- Report after the range bookkeeping of `parse_numeric`, which happens
before the threshold check: when any range cell exists the per-column
range count is recorded. -/
def rangesReport (r : Report) (name : String) (cells : List (Option String)) :
    Report :=
  if rangeCountOf cells ≠ 0 then
    { r with ranges_normalized :=
        r.ranges_normalized ++ [(name, rangeCountOf cells)] }
  else r

/-- Lean model of `clean_data.parse_numeric`. -/
def parse_numeric (col : Column) (r : Report) (name : String) :
    Column × Report :=
  match col with
  | .textCol cells =>
    let force := force_numeric name
    if force = false ∧ strContains name "id" = true then (.textCol cells, r)
    else if force = false ∧
        TEXT_SEMANTIC_KEYS.any (fun k => strContains name k) = true then
      (.textCol cells, r)
    else
      let sample := (cells.filterMap id).take 200
      if force = false ∧ sample.isEmpty then (.textCol cells, r)
      else if force = false ∧
          10 * (sample.filter (fun s => s.toList.any Char.isDigit)).length <
            3 * sample.length then
        (.textCol cells, r)
      else
        let r1 := rangesReport r name cells
        if countSome cells = 0 then (.textCol cells, r1)
        else if thNumOf name * countSome cells ≤
            10 * (parsedCountOf cells + percentCountOf cells) then
          (.numCol ((cells.map numCleanCell).map numericFinalCell),
           { r1 with numeric_parsed :=
              r1.numeric_parsed ++
                [(name, parsedCountOf cells + percentCountOf cells)] })
        else (.textCol cells, r1)
  | c => (c, r)


end CleanData

namespace CleanData

/-- A renamed table as `merge_duplicate_columns` receives it: named columns
in order; after name normalization several columns may carry the same
label. -/
abbrev Table := List (String × Column)

/-- First label that repeats a label already seen, scanning in order, as
the `seen` dict of `merge_duplicate_columns` does. -/
def firstRepeatedName (seen : List String) : List String → Option String
  | [] => none
  | n :: t => if n ∈ seen then some n else firstRepeatedName (n :: seen) t

/-- Lean model of `clean_data.merge_duplicate_columns`.  The loop records
every label in `seen`; at the first label that was already seen it
evaluates `df[primary].combine_first(df[base])`.  Because the label is
duplicated, `df[primary]` is a `DataFrame` (not a `Series`), and
`DataFrame.combine` — called by `combine_first` — evaluates
`series.dtype` with `series = this[col]` again a `DataFrame`, which has no
`dtype` attribute: pandas raises `AttributeError` and no merged table is
produced.  The model returns an error for any table with a repeated label;
otherwise `to_drop` stays empty and table and report are returned
unchanged. -/
def merge_duplicate_columns (df : Table) (r : Report) :
    Except String (Table × Report) :=
  match firstRepeatedName [] (df.map Prod.fst) with
  | some n => .error ("AttributeError in combine_first on duplicated label " ++ n)
  | none => .ok (df, r)

/-- Value of one cell of a fully cleaned row: missing, text, number or
timestamp.  Missing compares equal to missing, as pandas row
deduplication treats `NaN`. -/
inductive CellV where
  | missing
  | vs (s : String)
  | vq (q : Frac)
  | vd (d : PDate)
deriving DecidableEq, Repr

/-- A table row. -/
abbrev Row := List CellV

/-- Worker of `drop_duplicates`: drop any row equal to one in `seen` or to
an earlier kept row. -/
def dedupSeen (seen : List Row) : List Row → List Row
  | [] => []
  | x :: t =>
    if x ∈ seen then dedupSeen seen t
    else x :: dedupSeen (x :: seen) t

/-- Lean model of `df.drop_duplicates()` on the list of rows. -/
def drop_duplicates (rows : List Row) : List Row := dedupSeen [] rows

/-- Lean model of `clean_data.remove_exact_duplicates`. -/
def remove_exact_duplicates (rows : List Row) (r : Report) :
    List Row × Report :=
  let d := drop_duplicates rows
  (d, { r with duplicate_rows_removed := rows.length - d.length })

/-- Declarative keep-first deduplication: keep the head (the first
occurrence), delete every later row equal to it, recurse on the rest. -/
def keepFirstOccurrences : List Row → List Row
  | [] => []
  | x :: t => x :: keepFirstOccurrences (t.filter (fun y => decide (¬y = x)))
termination_by l => l.length
decreasing_by
  have hle := List.length_filter_le (fun y => decide (¬y = x)) t
  simp only [List.length_cons]
  omega

/-- Per-column body of the cleaning loop of `clean_dataframe`: the fixed
stage order (nulls, trim, emails, phones, codes, names, tags, status,
dates, numeric) applied to one column. -/
def cleanColumn (col : Column) (r : Report) (name : String) :
    Column × Report :=
  let s1 := normalize_nulls col r name
  let s2 := trim_strings s1.1 s1.2 name
  let s3 := normalize_emails s2.1 s2.2 name
  let s4 := normalize_phones s3.1 s3.2 name
  let s5 := normalize_codes s4.1 s4.2 name
  let s6 := normalize_names s5.1 s5.2 name
  let s7 := normalize_tags s6.1 s6.2 name
  let s8 := normalize_status s7.1 s7.2 name
  let s9 := parse_dates s8.1 s8.2 name
  parse_numeric s9.1 s9.2 name

end CleanData

namespace CleanData

lemma keepFirstOccurrences_nil : keepFirstOccurrences [] = [] := by
  rw [keepFirstOccurrences]

lemma keepFirstOccurrences_cons (x : Row) (t : List Row) :
    keepFirstOccurrences (x :: t) =
      x :: keepFirstOccurrences (t.filter (fun y => decide (¬y = x))) := by
  rw [keepFirstOccurrences]

lemma dedupSeen_eq :
    ∀ (n : Nat) (l : List Row), l.length ≤ n → ∀ seen : List Row,
      dedupSeen seen l =
        keepFirstOccurrences (l.filter (fun y => decide (¬y ∈ seen))) := by
  intro n
  induction n with
  | zero =>
    intro l hl seen
    rw [List.length_eq_zero.mp (Nat.le_zero.mp hl)]
    simp [dedupSeen, keepFirstOccurrences_nil]
  | succ n ih =>
    intro l hl seen
    cases l with
    | nil => simp [dedupSeen, keepFirstOccurrences_nil]
    | cons x t =>
      have ht : t.length ≤ n := Nat.le_of_succ_le_succ hl
      by_cases hx : x ∈ seen
      · have hstep : dedupSeen seen (x :: t) = dedupSeen seen t := by
          simp [dedupSeen, if_pos hx]
        rw [hstep, List.filter_cons, if_neg (by simp [hx])]
        exact ih t ht seen
      · have hstep : dedupSeen seen (x :: t) = x :: dedupSeen (x :: seen) t := by
          simp [dedupSeen, if_neg hx]
        rw [hstep, List.filter_cons, if_pos (by simp [hx])]
        rw [keepFirstOccurrences_cons, List.filter_filter]
        rw [ih t ht (x :: seen)]
        have hf : List.filter (fun a => decide (¬a = x) && decide (¬a ∈ seen)) t =
            List.filter (fun y => decide (¬y ∈ x :: seen)) t := by
          apply List.filter_congr
          intro y _
          by_cases h1 : y = x <;> by_cases h2 : y ∈ seen <;>
            simp [h1, h2, List.mem_cons]
        rw [hf]
      
lemma drop_duplicates_eq_keepFirst (rows : List Row) :
    drop_duplicates rows = keepFirstOccurrences rows := by
  unfold drop_duplicates
  rw [dedupSeen_eq rows.length rows (Nat.le_refl _) []]
  congr 1
  apply List.filter_eq_self.mpr
  intro y _
  simp

lemma keepFirst_sublist :
    ∀ (n : Nat) (l : List Row), l.length ≤ n →
      List.Sublist (keepFirstOccurrences l) l := by
  intro n
  induction n with
  | zero =>
    intro l hl
    rw [List.length_eq_zero.mp (Nat.le_zero.mp hl), keepFirstOccurrences_nil]
  | succ n ih =>
    intro l hl
    cases l with
    | nil => rw [keepFirstOccurrences_nil]
    | cons x t =>
      rw [keepFirstOccurrences_cons]
      have hlen : (t.filter (fun y => decide (¬y = x))).length ≤ n := by
        have := List.length_filter_le (fun y => decide (¬y = x)) t
        have ht : t.length ≤ n := Nat.le_of_succ_le_succ hl
        omega
      have h1 := ih _ hlen
      have h2 : List.Sublist (t.filter (fun y => decide (¬y = x))) t :=
        List.filter_sublist t
      exact List.Sublist.cons₂ x (h1.trans h2)

lemma keepFirst_nodup :
    ∀ (n : Nat) (l : List Row), l.length ≤ n →
      (keepFirstOccurrences l).Nodup := by
  intro n
  induction n with
  | zero =>
    intro l hl
    rw [List.length_eq_zero.mp (Nat.le_zero.mp hl), keepFirstOccurrences_nil]
    exact List.nodup_nil
  | succ n ih =>
    intro l hl
    cases l with
    | nil => rw [keepFirstOccurrences_nil]; exact List.nodup_nil
    | cons x t =>
      rw [keepFirstOccurrences_cons]
      have hlen : (t.filter (fun y => decide (¬y = x))).length ≤ n := by
        have := List.length_filter_le (fun y => decide (¬y = x)) t
        have ht : t.length ≤ n := Nat.le_of_succ_le_succ hl
        omega
      refine List.nodup_cons.mpr ⟨?_, ih _ hlen⟩
      intro hmem
      have hsub := (keepFirst_sublist _ _ hlen).subset hmem
      have := List.mem_filter.mp hsub
      simp at this

lemma keepFirst_mem :
    ∀ (n : Nat) (l : List Row), l.length ≤ n →
      ∀ x, x ∈ l → x ∈ keepFirstOccurrences l := by
  intro n
  induction n with
  | zero =>
    intro l hl x hx
    rw [List.length_eq_zero.mp (Nat.le_zero.mp hl)] at hx
    simp at hx
  | succ n ih =>
    intro l hl x hx
    cases l with
    | nil => simp at hx
    | cons y t =>
      rw [keepFirstOccurrences_cons]
      rcases List.mem_cons.mp hx with h | h
      · exact h ▸ List.mem_cons_self _ _
      · by_cases hxy : x = y
        · exact hxy ▸ List.mem_cons_self _ _
        · have hlen : (t.filter (fun z => decide (¬z = y))).length ≤ n := by
            have := List.length_filter_le (fun z => decide (¬z = y)) t
            have ht : t.length ≤ n := Nat.le_of_succ_le_succ hl
            omega
          have hmem : x ∈ t.filter (fun z => decide (¬z = y)) :=
            List.mem_filter.mpr ⟨h, by simp [hxy]⟩
          exact List.mem_cons_of_mem _ (ih _ hlen x hmem)

/-- C8: a row is removed exactly when it equals an earlier row
(missing-equals-missing), the first occurrence of each distinct row is
kept, the relative order of kept rows is preserved, and
`duplicate_rows_removed` is exactly the number of removed rows. -/
theorem remove_exact_duplicates_spec (rows : List Row) (r : Report) :
    (remove_exact_duplicates rows r).1 = keepFirstOccurrences rows ∧
    List.Sublist (remove_exact_duplicates rows r).1 rows ∧
    ((remove_exact_duplicates rows r).1).Nodup ∧
    (∀ x, x ∈ (remove_exact_duplicates rows r).1 ↔ x ∈ rows) ∧
    (remove_exact_duplicates rows r).2.duplicate_rows_removed +
      ((remove_exact_duplicates rows r).1).length = rows.length := by
  have heq : (remove_exact_duplicates rows r).1 = keepFirstOccurrences rows :=
    drop_duplicates_eq_keepFirst rows
  have hsub : List.Sublist (remove_exact_duplicates rows r).1 rows := by
    rw [heq]; exact keepFirst_sublist rows.length rows (Nat.le_refl _)
  refine ⟨heq, hsub, ?_, ?_, ?_⟩
  · rw [heq]; exact keepFirst_nodup rows.length rows (Nat.le_refl _)
  · intro x
    constructor
    · exact fun hx => hsub.subset hx
    · intro hx
      rw [heq]
      exact keepFirst_mem rows.length rows (Nat.le_refl _) x hx
  · have hle : ((remove_exact_duplicates rows r).1).length ≤ rows.length :=
      hsub.length_le
    have h2 : (remove_exact_duplicates rows r).2.duplicate_rows_removed =
        rows.length - (drop_duplicates rows).length := rfl
    have h1 : (remove_exact_duplicates rows r).1 = drop_duplicates rows := rfl
    rw [h2, h1]
    rw [h1] at hle
    omega

end CleanData

namespace CleanData

lemma normalize_nulls_len (col : Column) (r : Report) (name : String) :
    colLen (normalize_nulls col r name).1 = colLen col := by
  cases col with
  | textCol cells => simp [normalize_nulls, colLen]
  | numCol cells => rfl
  | dateCol cells => rfl

lemma trim_strings_len (col : Column) (r : Report) (name : String) :
    colLen (trim_strings col r name).1 = colLen col := by
  cases col with
  | textCol cells => simp [trim_strings, colLen]
  | numCol cells => rfl
  | dateCol cells => rfl

lemma normalize_emails_len (col : Column) (r : Report) (name : String) :
    colLen (normalize_emails col r name).1 = colLen col := by
  cases col with
  | textCol cells =>
    simp only [normalize_emails]
    split <;> simp [colLen]
  | numCol cells => rfl
  | dateCol cells => rfl

lemma normalize_phones_len (col : Column) (r : Report) (name : String) :
    colLen (normalize_phones col r name).1 = colLen col := by
  cases col with
  | textCol cells =>
    simp only [normalize_phones]
    split <;> simp [colLen]
  | numCol cells => rfl
  | dateCol cells => rfl

lemma normalize_codes_len (col : Column) (r : Report) (name : String) :
    colLen (normalize_codes col r name).1 = colLen col := by
  cases col with
  | textCol cells =>
    simp only [normalize_codes]
    split <;> simp [colLen]
  | numCol cells => rfl
  | dateCol cells => rfl

lemma normalize_names_len (col : Column) (r : Report) (name : String) :
    colLen (normalize_names col r name).1 = colLen col := by
  cases col with
  | textCol cells =>
    simp only [normalize_names]
    split <;> simp [colLen]
  | numCol cells => rfl
  | dateCol cells => rfl

lemma normalize_tags_len (col : Column) (r : Report) (name : String) :
    colLen (normalize_tags col r name).1 = colLen col := by
  cases col with
  | textCol cells =>
    simp only [normalize_tags]
    split <;> simp [colLen]
  | numCol cells => rfl
  | dateCol cells => rfl

lemma normalize_status_len (col : Column) (r : Report) (name : String) :
    colLen (normalize_status col r name).1 = colLen col := by
  cases col with
  | textCol cells =>
    simp only [normalize_status]
    split <;> simp [colLen]
  | numCol cells => rfl
  | dateCol cells => rfl

lemma parse_dates_len (col : Column) (r : Report) (name : String) :
    colLen (parse_dates col r name).1 = colLen col := by
  cases col with
  | textCol cells =>
    simp only [parse_dates]
    repeat' split
    all_goals simp [colLen]
  | numCol cells => rfl
  | dateCol cells => rfl

lemma parse_numeric_len (col : Column) (r : Report) (name : String) :
    colLen (parse_numeric col r name).1 = colLen col := by
  cases col with
  | textCol cells =>
    simp only [parse_numeric]
    repeat' split
    all_goals simp [colLen]
  | numCol cells => rfl
  | dateCol cells => rfl

lemma cleanColumn_len (col : Column) (r : Report) (name : String) :
    colLen (cleanColumn col r name).1 = colLen col := by
  simp only [cleanColumn]
  rw [parse_numeric_len, parse_dates_len, normalize_status_len,
    normalize_tags_len, normalize_names_len, normalize_codes_len,
    normalize_phones_len, normalize_emails_len, trim_strings_len,
    normalize_nulls_len]

/-- C10: every per-column transform (null normalization, whitespace
trimming, the six domain normalizers, date parsing, numeric parsing)
returns a column with exactly as many cells as its input, and hence so
does the whole per-column stage chain of `clean_dataframe` — the table's
row count can change only at the duplicate-row-removal step. -/
theorem per_column_stages_preserve_row_count :
    (∀ col r name, colLen (normalize_nulls col r name).1 = colLen col) ∧
    (∀ col r name, colLen (trim_strings col r name).1 = colLen col) ∧
    (∀ col r name, colLen (normalize_emails col r name).1 = colLen col) ∧
    (∀ col r name, colLen (normalize_phones col r name).1 = colLen col) ∧
    (∀ col r name, colLen (normalize_codes col r name).1 = colLen col) ∧
    (∀ col r name, colLen (normalize_names col r name).1 = colLen col) ∧
    (∀ col r name, colLen (normalize_tags col r name).1 = colLen col) ∧
    (∀ col r name, colLen (normalize_status col r name).1 = colLen col) ∧
    (∀ col r name, colLen (parse_dates col r name).1 = colLen col) ∧
    (∀ col r name, colLen (parse_numeric col r name).1 = colLen col) ∧
    (∀ col r name, colLen (cleanColumn col r name).1 = colLen col) :=
  ⟨normalize_nulls_len, trim_strings_len, normalize_emails_len,
   normalize_phones_len, normalize_codes_len, normalize_names_len,
   normalize_tags_len, normalize_status_len, parse_dates_len,
   parse_numeric_len, cleanColumn_len⟩

end CleanData

namespace CleanData

/-- C1 (code behaviour at the failing input): the original headers
`Order ID` and `order_id ` normalize to the same name `order_id`, and
`merge_duplicate_columns` on the renamed table raises instead of merging —
with a duplicated label, `df[primary]` is a `DataFrame` whose
`combine_first` path fails — so no column of the colliding group is kept,
no cell is filled, and no merged-column name is recorded. -/
theorem merge_duplicate_columns_raises_on_collision :
    normalize_column_name "Order ID" = "order_id" ∧
    normalize_column_name "order_id " = "order_id" ∧
    merge_duplicate_columns
        [("order_id", Column.textCol [none, some "B"]),
         ("order_id", Column.textCol [some "A", some "C"])] emptyReport =
      Except.error
        "AttributeError in combine_first on duplicated label order_id" := by
  refine ⟨by decide, by decide, rfl⟩

/-- C4 counterexample: in a forced date column, `31/04/2024` does not
parse at all — April has 30 days, so both the month-first and the
day-first attempt raise — and the cell becomes missing instead of
yielding day 31, month 4. -/
theorem date_fallback_counterexample :
    dateutil_parse true "31/04/2024" = none ∧
    dateutil_parse false "31/04/2024" = none ∧
    (parse_dates (Column.textCol [some "03/04/2024", some "31/04/2024"])
        emptyReport "order_date").1 =
      Column.dateCol [some ⟨2024, 3, 4⟩, none] := by
  refine ⟨by decide, by decide, by decide⟩

/-- C4 amended: `03/04/2024` parses with the month-first interpretation
attempted first (March 4), while `31/04/2024` fails both the month-first
and the day-first attempt (April 31 does not exist), so in a forced date
column that cell becomes missing; the committed column counts one parsed
cell. -/
theorem date_fallback_amended :
    dateutil_parse false "03/04/2024" = some ⟨2024, 3, 4⟩ ∧
    parse_dates (Column.textCol [some "03/04/2024", some "31/04/2024"])
        emptyReport "order_date" =
      (Column.dateCol [some ⟨2024, 3, 4⟩, none],
       { emptyReport with dates_parsed := [("order_date", 1)] }) := by
  refine ⟨by decide, by decide⟩

/-- Column used for C5: seven cells parse as numbers, thirteen do not, so
exactly 35 percent of the twenty non-missing cells parse. -/
def c5cells : List (Option String) :=
  [some "1", some "2", some "3", some "4", some "5", some "6", some "7"] ++
    List.replicate 13 (some "x")

/-- C5: with a 35 percent parse rate, the forced column `total_price`
(threshold 0.3) is committed to numeric while the unforced column `misc`
(threshold 0.6, digit presence 0.35 ≥ 0.3 in the sample) is left entirely
as text. -/
theorem numeric_threshold_35_percent :
    force_numeric "total_price" = true ∧
    force_numeric "misc" = false ∧
    countSome c5cells = 20 ∧
    ((c5cells.map numCleanCell).filter
      (fun l => (numericValueCell l).isSome)).length = 7 ∧
    parse_numeric (Column.textCol c5cells) emptyReport "total_price" =
      (Column.numCol ([some ⟨1, 1⟩, some ⟨2, 1⟩, some ⟨3, 1⟩, some ⟨4, 1⟩,
          some ⟨5, 1⟩, some ⟨6, 1⟩, some ⟨7, 1⟩] ++ List.replicate 13 none),
       { emptyReport with numeric_parsed := [("total_price", 7)] }) ∧
    parse_numeric (Column.textCol c5cells) emptyReport "misc" =
      (Column.textCol c5cells, emptyReport) := by
  refine ⟨by decide, by decide, by decide, by decide, by decide, by decide⟩

/-- Column used for the C2 counterexample: one range-shaped cell among ten
non-missing cells, so the forced acceptance ratio 1/10 is below 0.3. -/
def c2cells : List (Option String) := some "2-3" :: List.replicate 9 (some "x")

/-- C2 counterexample: a forced column rejected below threshold is
returned unchanged with no `numeric_parsed` entry, yet the attempted
conversion is observable — `ranges_normalized` has already recorded the
range cell (the code writes it before the threshold check). -/
theorem numeric_reject_records_ranges :
    force_numeric "price" = true ∧
    ((c2cells.map numCleanCell).filter
      (fun l => (numericValueCell l).isSome)).length = 1 ∧
    ((c2cells.map numCleanCell).filter
      (fun l => (percentParse l).isSome)).length = 0 ∧
    countSome c2cells = 10 ∧
    10 * (1 + 0) < 3 * 10 ∧
    parse_numeric (Column.textCol c2cells) emptyReport "price" =
      (Column.textCol c2cells,
       { emptyReport with ranges_normalized := [("price", 1)] }) := by
  refine ⟨by decide, by decide, by decide, by decide, by decide, by decide⟩

end CleanData

namespace CleanData

lemma rangesReport_numeric_parsed (r : Report) (name : String)
    (cells : List (Option String)) :
    (rangesReport r name cells).numeric_parsed = r.numeric_parsed := by
  unfold rangesReport
  split <;> rfl

lemma rangesReport_ranges (r : Report) (name : String)
    (cells : List (Option String)) :
    (rangesReport r name cells).ranges_normalized =
      (if rangeCountOf cells = 0 then r.ranges_normalized
       else r.ranges_normalized ++ [(name, rangeCountOf cells)]) := by
  unfold rangesReport
  by_cases h : rangeCountOf cells = 0 <;> simp [h]

/-- Outcome dichotomy of `parse_numeric` on a text column: either the
column is returned unchanged (with at most the range bookkeeping applied
to the report), or the threshold was met and the candidate numeric column
is committed. -/
lemma parse_numeric_cases (cells : List (Option String)) (r : Report)
    (name : String) :
    parse_numeric (Column.textCol cells) r name = (Column.textCol cells, r) ∨
    parse_numeric (Column.textCol cells) r name =
      (Column.textCol cells, rangesReport r name cells) ∨
    (thNumOf name * countSome cells ≤
        10 * (parsedCountOf cells + percentCountOf cells) ∧
      countSome cells ≠ 0 ∧
      parse_numeric (Column.textCol cells) r name =
        (Column.numCol ((cells.map numCleanCell).map numericFinalCell),
         { rangesReport r name cells with numeric_parsed :=
            (rangesReport r name cells).numeric_parsed ++
              [(name, parsedCountOf cells + percentCountOf cells)] })) := by
  simp only [parse_numeric]
  split
  · exact Or.inl rfl
  · split
    · exact Or.inl rfl
    · split
      · exact Or.inl rfl
      · split
        · exact Or.inl rfl
        · split
          · exact Or.inr (Or.inl rfl)
          · split
            · rename_i h0 hth
              exact Or.inr (Or.inr ⟨hth, h0, rfl⟩)
            · exact Or.inr (Or.inl rfl)

/-- C2 (amended): a text column whose accepted-cell ratio is below its
acceptance threshold is returned exactly as received and gets no
`numeric_parsed` entry; `ranges_normalized`, however, may still record the
column's range cells, because that bookkeeping happens before the
threshold check. -/
theorem numeric_reject_all_or_nothing (cells : List (Option String))
    (r : Report) (name : String)
    (hbelow : 10 * (parsedCountOf cells + percentCountOf cells) <
      thNumOf name * countSome cells) :
    (parse_numeric (Column.textCol cells) r name).1 = Column.textCol cells ∧
    (parse_numeric (Column.textCol cells) r name).2.numeric_parsed =
      r.numeric_parsed ∧
    ((parse_numeric (Column.textCol cells) r name).2.ranges_normalized =
        r.ranges_normalized ∨
      (parse_numeric (Column.textCol cells) r name).2.ranges_normalized =
        r.ranges_normalized ++ [(name, rangeCountOf cells)]) := by
  rcases parse_numeric_cases cells r name with h | h | ⟨hth, _, _⟩
  · rw [h]
    exact ⟨rfl, rfl, Or.inl rfl⟩
  · rw [h]
    refine ⟨rfl, rangesReport_numeric_parsed r name cells, ?_⟩
    rw [rangesReport_ranges]
    by_cases hrc : rangeCountOf cells = 0
    · rw [if_pos hrc]; exact Or.inl rfl
    · rw [if_neg hrc]; exact Or.inr rfl
  · omega

/-- Witness for the amended C2 at a concrete forced column: one range cell
among four non-missing cells is below the forced threshold, and the column
comes back unchanged. -/
theorem numeric_reject_all_or_nothing_witness :
    10 * (parsedCountOf [some "2-3", some "x", some "x", some "x"] +
        percentCountOf [some "2-3", some "x", some "x", some "x"]) <
      thNumOf "cost" * countSome [some "2-3", some "x", some "x", some "x"] ∧
    (parse_numeric
        (Column.textCol [some "2-3", some "x", some "x", some "x"])
        emptyReport "cost").1 =
      Column.textCol [some "2-3", some "x", some "x", some "x"] :=
  ⟨by decide,
   (numeric_reject_all_or_nothing [some "2-3", some "x", some "x", some "x"]
     emptyReport "cost" (by decide)).1⟩

end CleanData

namespace CleanData

lemma digit_ne_of {c x : Char} (h : c.isDigit = true) (hx : x.isDigit = false) :
    c ≠ x := by
  intro he
  subst he
  rw [hx] at h
  exact Bool.noConfusion h

lemma numTok_head_digit {l : List Char} {v : Frac × List Char}
    (h : numTok l = some v) : ∃ d t, l = d :: t ∧ d.isDigit = true := by
  cases l with
  | nil => simp [numTok, splitDigits] at h
  | cons d t =>
    by_cases hd : d.isDigit = true
    · exact ⟨d, t, rfl, hd⟩
    · exfalso
      rw [Bool.not_eq_true] at hd
      simp [numTok, splitDigits, List.takeWhile_cons, hd] at h

lemma rangeParse_inv {lc : List Char} {a b : Frac}
    (h : rangeParse lc = some (a, b)) :
    ∃ r2, numTok lc = some (a, '-' :: r2) ∧ numTok r2 = some (b, []) := by
  unfold rangeParse at h
  split at h
  · rename_i x r2 heq
    split at h
    · rename_i y heq2
      injection h with h1
      injection h1 with h2 h3
      subst h2
      subst h3
      exact ⟨r2, heq, heq2⟩
    · exact absurd h (by simp)
  · exact absurd h (by simp)

lemma percentBody_inv {l : List Char} {q : Frac} (h : percentBody l = some q) :
    ∃ q0, numTok l = some (q0, ['%']) ∧ q = fracDivNat q0 100 := by
  unfold percentBody at h
  split at h
  · rename_i q0 heq
    injection h with h1
    exact ⟨q0, heq, h1.symm⟩
  · exact absurd h (by simp)

lemma rangeParse_none_of {l : List Char}
    (h : ∀ x r2, numTok l ≠ some (x, '-' :: r2)) : rangeParse l = none := by
  unfold rangeParse
  split
  · rename_i x r2 heq
    exact absurd heq (h x r2)
  · rfl

lemma percentBody_none_of {l : List Char}
    (h : ∀ x, numTok l ≠ some (x, ['%'])) : percentBody l = none := by
  unfold percentBody
  split
  · rename_i q heq
    exact absurd heq (h q)
  · rfl

lemma numTok_minus_head : ∀ (t : List Char), numTok ('-' :: t) = none := by
  intro t
  have hd : ('-').isDigit = false := by decide
  simp [numTok, splitDigits, List.takeWhile_cons, hd]

lemma range_not_percent {lc : List Char} {a b : Frac}
    (h : rangeParse lc = some (a, b)) : percentParse lc = none := by
  obtain ⟨r2, hnt, _⟩ := rangeParse_inv h
  obtain ⟨d, t, hl, hd⟩ := numTok_head_digit hnt
  subst hl
  have hdm : d ≠ '-' := digit_ne_of hd (by decide)
  simp only [percentParse]
  rw [if_neg hdm]
  apply percentBody_none_of
  intro x he
  rw [hnt] at he
  injection he with h1
  injection h1 with h2 h3
  injection h3 with h4 h5
  exact absurd h4 (by decide)

lemma percent_numTok {lc : List Char} {q : Frac}
    (h : percentParse lc = some q) :
    (∃ t v, lc = '-' :: t ∧ numTok t = some (v, ['%'])) ∨
    (∃ v d t, numTok lc = some (v, ['%']) ∧ lc = d :: t ∧ d.isDigit = true) := by
  cases lc with
  | nil =>
    simp only [percentParse] at h
    rw [percentBody_none_of (by intro x he; simp [numTok, splitDigits] at he)] at h
    exact absurd h (by simp)
  | cons c t =>
    simp only [percentParse] at h
    by_cases hc : c = '-'
    · subst hc
      rw [if_pos rfl] at h
      rcases Option.map_eq_some'.mp h with ⟨q0, hq0, _⟩
      obtain ⟨v, hv, _⟩ := percentBody_inv hq0
      exact Or.inl ⟨t, v, rfl, hv⟩
    · rw [if_neg hc] at h
      obtain ⟨v, hv, _⟩ := percentBody_inv h
      obtain ⟨d, t2, hl, hd⟩ := numTok_head_digit hv
      exact Or.inr ⟨v, d, t2, hv, hl, hd⟩

end CleanData

namespace CleanData

lemma parse_numeric_commit_inv {cells : List (Option String)} {r : Report}
    {name : String} {out : List (Option Frac)}
    (hcommit : (parse_numeric (Column.textCol cells) r name).1 =
      Column.numCol out) :
    out = (cells.map numCleanCell).map numericFinalCell ∧
    (parse_numeric (Column.textCol cells) r name).2 =
      { rangesReport r name cells with numeric_parsed :=
          (rangesReport r name cells).numeric_parsed ++
            [(name, parsedCountOf cells + percentCountOf cells)] } := by
  rcases parse_numeric_cases cells r name with h | h | ⟨_, _, h⟩
  · rw [h] at hcommit
    simp at hcommit
  · rw [h] at hcommit
    simp at hcommit
  · rw [h] at hcommit
    rw [h]
    simp only [Column.numCol.injEq] at hcommit
    exact ⟨hcommit.symm, rfl⟩

/-- C6: in a committed numeric column, every cell whose cleaned text
wholly matches the range shape receives the arithmetic mean of its two
endpoints, and `ranges_normalized` for the column counts exactly the
range-shaped cells (when at least one exists). -/
theorem range_cells_mean_on_commit (cells : List (Option String))
    (r : Report) (name : String) (out : List (Option Frac))
    (hcommit : (parse_numeric (Column.textCol cells) r name).1 =
      Column.numCol out) :
    (∀ i lc a b, (cells.map numCleanCell).get? i = some lc →
        rangeParse lc = some (a, b) →
        out.get? i = some (some (fracDivNat (fracAdd a b) 2))) ∧
    (parse_numeric (Column.textCol cells) r name).2.ranges_normalized =
      (if rangeCountOf cells = 0 then r.ranges_normalized
       else r.ranges_normalized ++ [(name, rangeCountOf cells)]) := by
  obtain ⟨hout, hrep⟩ := parse_numeric_commit_inv hcommit
  constructor
  · intro i lc a b hget hrange
    rw [hout, List.get?_map, hget]
    have hcell : numericFinalCell lc = some (fracDivNat (fracAdd a b) 2) := by
      unfold numericFinalCell
      rw [range_not_percent hrange]
      unfold numericValueCell
      rw [hrange]
    rw [Option.map_some', hcell]
  · rw [hrep]
    exact rangesReport_ranges r name cells

/-- Witness for C6: the forced column `qty` with cells `2-3` and `4`
commits; the range cell receives the mean 5/2 and is counted once. -/
theorem range_cells_mean_on_commit_witness :
    (parse_numeric (Column.textCol [some "2-3", some "4"]) emptyReport
        "qty").1 = Column.numCol [some ⟨5, 2⟩, some ⟨4, 1⟩] ∧
    ([some (⟨5, 2⟩ : Frac), some ⟨4, 1⟩].get? 0 =
      some (some (fracDivNat (fracAdd ⟨2, 1⟩ ⟨3, 1⟩) 2))) := by
  have hc : (parse_numeric (Column.textCol [some "2-3", some "4"]) emptyReport
      "qty").1 = Column.numCol [some ⟨5, 2⟩, some ⟨4, 1⟩] := by decide
  exact ⟨hc, (range_cells_mean_on_commit [some "2-3", some "4"] emptyReport
    "qty" [some ⟨5, 2⟩, some ⟨4, 1⟩] hc).1 0 ("2-3".toList) ⟨2, 1⟩ ⟨3, 1⟩
    (by decide) (by decide)⟩

end CleanData

namespace CleanData

lemma numTok_decomp {l : List Char} {v : Frac} {rest : List Char}
    (h : numTok l = some (v, rest)) :
    ∃ a b, l = a ++ (b ++ rest) ∧ a ≠ [] ∧ (∀ c ∈ a, c.isDigit = true) ∧
      (b = [] ∨ ∃ b2, b = '.' :: b2 ∧ (∀ c ∈ b2, c.isDigit = true)) := by
  have hsplit : l.takeWhile Char.isDigit ++ l.dropWhile Char.isDigit = l :=
    List.takeWhile_append_dropWhile _ _
  have hadig : ∀ c ∈ l.takeWhile Char.isDigit, c.isDigit = true :=
    fun c hc => List.mem_takeWhile_imp hc
  unfold numTok at h
  simp only [splitDigits] at h
  split at h
  · exact absurd h (by simp)
  · rename_i hne
    have hane : l.takeWhile Char.isDigit ≠ [] := by
      intro he
      rw [he] at hne
      exact hne rfl
    split at h
    · rename_i r2 heq
      have hsplit2 :
          r2.takeWhile Char.isDigit ++ r2.dropWhile Char.isDigit = r2 :=
        List.takeWhile_append_dropWhile _ _
      split at h
      · injection h with h1
        injection h1 with h2 h3
        refine ⟨l.takeWhile Char.isDigit, [], ?_, hane, hadig, Or.inl rfl⟩
        rw [List.nil_append, ← h3, ← heq]
        exact hsplit.symm
      · injection h with h1
        injection h1 with h2 h3
        refine ⟨l.takeWhile Char.isDigit, '.' :: r2.takeWhile Char.isDigit,
          ?_, hane, hadig, Or.inr ⟨r2.takeWhile Char.isDigit, rfl,
            fun c hc => List.mem_takeWhile_imp hc⟩⟩
        rw [List.cons_append, ← h3, hsplit2, ← heq]
        exact hsplit.symm
    · injection h with h1
      injection h1 with h2 h3
      refine ⟨l.takeWhile Char.isDigit, [], ?_, hane, hadig, Or.inl rfl⟩
      rw [List.nil_append, ← h3]
      exact hsplit.symm

lemma splitDigits_append (ys : List Char) {xs : List Char} {y : Char}
    (hxs : ∀ c ∈ xs, c.isDigit = true) (hy : y.isDigit = false) :
    (xs ++ y :: ys).takeWhile Char.isDigit = xs ∧
    (xs ++ y :: ys).dropWhile Char.isDigit = y :: ys := by
  induction xs with
  | nil => simp [List.takeWhile_cons, List.dropWhile_cons, hy]
  | cons x t ih =>
    have hx := hxs x (by simp)
    have iht := ih (fun c hc => hxs c (by simp [hc]))
    constructor
    · rw [List.cons_append, List.takeWhile_cons, hx]
      simp [iht.1]
    · rw [List.cons_append, List.dropWhile_cons, hx]
      simp [iht.2]

lemma pyFloatCore_percent {l : List Char} {v : Frac}
    (h : numTok l = some (v, ['%'])) : pyFloatCore l = none := by
  obtain ⟨a, b, hl, hane, hadig, hb⟩ := numTok_decomp h
  rcases hb with rfl | ⟨b2, rfl, hb2⟩
  · rw [List.nil_append] at hl
    subst hl
    have hsp := splitDigits_append [] hadig (show ('%').isDigit = false by decide)
    unfold pyFloatCore
    simp only [splitDigits]
    rw [hsp.2]
    rfl
  · rw [List.cons_append] at hl
    subst hl
    have hsp := splitDigits_append (b2 ++ ['%']) hadig
      (show ('.').isDigit = false by decide)
    have hsp2 := splitDigits_append [] hb2 (show ('%').isDigit = false by decide)
    unfold pyFloatCore
    simp only [splitDigits]
    rw [hsp.2]
    simp [hsp2.1, hsp2.2]

lemma commaDecShape_of_head {l : List Char}
    (h : ∀ r2, l.dropWhile Char.isDigit ≠ ',' :: r2) :
    commaDecShape l = false := by
  unfold commaDecShape
  simp only [splitDigits]

lemma numTok_percent_chars {l : List Char} {v : Frac}
    (h : numTok l = some (v, ['%'])) : ∀ c ∈ l, ¬c = ',' := by
  obtain ⟨a, b, hl, _, hadig, hb⟩ := numTok_decomp h
  subst hl
  intro c hc
  rcases List.mem_append.mp hc with hc | hc
  · exact digit_ne_of (hadig c hc) (by decide)
  · rcases hb with rfl | ⟨b2, rfl, hb2⟩
    · rw [List.nil_append] at hc
      simp at hc
      subst hc
      decide
    · have hc3 : c = '.' ∨ c ∈ b2 ∨ c = '%' := by simpa using hc
      rcases hc3 with rfl | hc4 | rfl
      · decide
      · exact digit_ne_of (hb2 c hc4) (by decide)
      · decide

end CleanData

namespace CleanData

lemma percent_no_range {lc : List Char} {q : Frac}
    (h : percentParse lc = some q) : rangeParse lc = none := by
  rcases percent_numTok h with ⟨t, v, hlc, hnt⟩ | ⟨v, d, t, hnt, hlc, hd⟩
  · subst hlc
    apply rangeParse_none_of
    intro x r2 he
    rw [numTok_minus_head t] at he
    exact Option.noConfusion he
  · apply rangeParse_none_of
    intro x r2 he
    rw [hnt] at he
    injection he with h1
    injection h1 with h2 h3
    injection h3 with h4 h5
    exact absurd h4 (by decide)

lemma percent_commaFix_id {lc : List Char} {q : Frac}
    (h : percentParse lc = some q) : commaFix lc = lc := by
  rcases percent_numTok h with ⟨t, v, hlc, hnt⟩ | ⟨v, d, t, hnt, hlc, hd⟩
  · subst hlc
    have hshape : commaDecShape ('-' :: t) = false := by
      apply commaDecShape_of_head
      intro r2 he
      rw [List.dropWhile_cons] at he
      rw [show Char.isDigit '-' = false from by decide] at he
      simp only [Bool.false_eq_true, if_neg] at he
      injection he with h1 h2
      exact absurd h1 (by decide)
    unfold commaFix
    rw [hshape]
    simp only [Bool.false_eq_true, if_false]
    apply List.filter_eq_self.mpr
    intro c hc
    rcases List.mem_cons.mp hc with rfl | hc2
    · decide
    · simp [numTok_percent_chars hnt c hc2]
  · subst hlc
    have hch := numTok_percent_chars hnt
    have hshape : commaDecShape (d :: t) = false := by
      apply commaDecShape_of_head
      intro r2 he
      have hsub : List.Sublist ((d :: t).dropWhile Char.isDigit) (d :: t) :=
        List.dropWhile_sublist Char.isDigit
      have hmem : ',' ∈ (d :: t) := by
        apply hsub.subset
        rw [he]
        exact List.mem_cons_self ',' r2
      exact (hch ',' hmem) rfl
    unfold commaFix
    rw [hshape]
    simp only [Bool.false_eq_true, if_false]
    apply List.filter_eq_self.mpr
    intro c hc
    simp [hch c hc]

lemma percent_no_float {lc : List Char} {q : Frac}
    (h : percentParse lc = some q) : pyFloatParse (commaFix lc) = none := by
  rw [percent_commaFix_id h]
  rcases percent_numTok h with ⟨t, v, hlc, hnt⟩ | ⟨v, d, t, hnt, hlc, hd⟩
  · subst hlc
    simp only [pyFloatParse, if_true]
    rw [pyFloatCore_percent hnt]
    rfl
  · subst hlc
    simp only [pyFloatParse]
    rw [if_neg (digit_ne_of hd (by decide))]
    exact pyFloatCore_percent hnt

lemma percent_not_numeric {lc : List Char} {q : Frac}
    (h : percentParse lc = some q) : numericValueCell lc = none := by
  unfold numericValueCell
  rw [percent_no_range h]
  exact percent_no_float h

/-- C7: in a committed numeric column, every cell whose cleaned text
wholly matches the percent shape receives the matched number divided by
one hundred (overriding the plain numeric parse, which in fact fails on
such cells), and the recorded `numeric_parsed` count is the sum of the
numerically-parsed and the percent-matched cell counts. -/
theorem percent_cells_on_commit (cells : List (Option String)) (r : Report)
    (name : String) (out : List (Option Frac))
    (hcommit : (parse_numeric (Column.textCol cells) r name).1 =
      Column.numCol out) :
    (∀ i lc q, (cells.map numCleanCell).get? i = some lc →
        percentParse lc = some q →
        out.get? i = some (some q) ∧ numericValueCell lc = none) ∧
    (parse_numeric (Column.textCol cells) r name).2.numeric_parsed =
      r.numeric_parsed ++ [(name, parsedCountOf cells + percentCountOf cells)] := by
  obtain ⟨hout, hrep⟩ := parse_numeric_commit_inv hcommit
  constructor
  · intro i lc q hget hq
    constructor
    · rw [hout, List.get?_map, hget, Option.map_some']
      have hcell : numericFinalCell lc = some q := by
        unfold numericFinalCell
        rw [hq]
      rw [hcell]
    · exact percent_not_numeric hq
  · rw [hrep]
    simp only []
    rw [rangesReport_numeric_parsed]

/-- Witness for C7: the forced column `tax` with cells `10%` and `5`
commits; the percent cell receives 1/10, is not numerically parsed, and
the recorded count is 2. -/
theorem percent_cells_on_commit_witness :
    (parse_numeric (Column.textCol [some "10%", some "5"]) emptyReport
        "tax").1 = Column.numCol [some ⟨1, 10⟩, some ⟨5, 1⟩] ∧
    ([some (⟨1, 10⟩ : Frac), some ⟨5, 1⟩].get? 0 = some (some ⟨1, 10⟩) ∧
      numericValueCell ("10%".toList) = none) := by
  have hc : (parse_numeric (Column.textCol [some "10%", some "5"]) emptyReport
      "tax").1 = Column.numCol [some ⟨1, 10⟩, some ⟨5, 1⟩] := by decide
  exact ⟨hc, (percent_cells_on_commit [some "10%", some "5"] emptyReport "tax"
    [some ⟨1, 10⟩, some ⟨5, 1⟩] hc).1 0 ("10%".toList) ⟨1, 10⟩
    (by decide) (by decide)⟩

end CleanData

namespace CleanData

lemma splitByPred_ne_nil (p : Char → Bool) : ∀ l, splitByPred p l ≠ [] := by
  intro l
  cases l with
  | nil => simp [splitByPred]
  | cons c t =>
    unfold splitByPred
    split
    · simp
    · split <;> simp

lemma splitByPred_mem (p : Char → Bool) :
    ∀ (l : List Char) (c : Char), c ∈ l →
      p c = true ∨ ∃ part, part ∈ splitByPred p l ∧ c ∈ part := by
  intro l
  induction l with
  | nil => intro c hc; simp at hc
  | cons a t ih =>
    intro c hc
    obtain ⟨h0, rest, hsp⟩ : ∃ h0 rest, splitByPred p t = h0 :: rest := by
      cases hsp : splitByPred p t with
      | nil => exact absurd hsp (splitByPred_ne_nil p t)
      | cons h0 rest => exact ⟨h0, rest, rfl⟩
    have hstep : splitByPred p (a :: t) =
        if p a then [] :: h0 :: rest else (a :: h0) :: rest := by
      unfold splitByPred
      rw [hsp]
    rcases List.mem_cons.mp hc with rfl | hct
    · by_cases hp : p c = true
      · exact Or.inl hp
      · refine Or.inr ⟨c :: h0, ?_, by simp⟩
        rw [hstep, if_neg (by simpa using hp)]
        simp
    · rcases ih c hct with hp | ⟨part, hpart, hcp⟩
      · exact Or.inl hp
      · refine Or.inr ?_
        rw [hsp] at hpart
        rcases List.mem_cons.mp hpart with rfl | hrest
        · by_cases hp : p a = true
          · exact ⟨part, by rw [hstep, if_pos hp]; simp, hcp⟩
          · exact ⟨a :: part, by rw [hstep, if_neg (by simpa using hp)]; simp,
              by simp [hcp]⟩
        · by_cases hp : p a = true
          · exact ⟨part, by rw [hstep, if_pos hp]; simp [hrest], hcp⟩
          · exact ⟨part, by rw [hstep, if_neg (by simpa using hp)]; simp [hrest],
              hcp⟩

lemma dateutil_parse_chars {b : Bool} {s : String} {d : PDate}
    (h : dateutil_parse b s = some d) :
    ∀ c ∈ s.toList, c.isDigit = true ∨ isDateSep c = true := by
  unfold dateutil_parse at h
  split at h
  · rename_i a b2 c3 heq
    split at h
    · rename_i hcond
      simp only [Bool.and_eq_true] at hcond
      obtain ⟨_, ⟨ha2, hb2⟩, hc2⟩ := hcond
      intro c hc
      rcases splitByPred_mem isDateSep s.toList c hc with hp | ⟨part, hpart, hcp⟩
      · exact Or.inr hp
      · rw [heq] at hpart
        left
        have hpart3 : part = a ∨ part = b2 ∨ part = c3 := by simpa using hpart
        rcases hpart3 with rfl | rfl | rfl
        · exact List.all_eq_true.mp ha2 c hcp
        · exact List.all_eq_true.mp hb2 c hcp
        · exact List.all_eq_true.mp hc2 c hcp
    · exact absurd h (by simp)
  · exact absurd h (by simp)

lemma digit_or_sep_props {c : Char}
    (h : c.isDigit = true ∨ isDateSep c = true) :
    isWs c = false ∧ c ≠ '\\' := by
  constructor
  · cases hw : isWs c with
    | false => rfl
    | true =>
      exfalso
      simp only [isWs, Bool.or_eq_true, decide_eq_true_eq] at hw
      rcases hw with ((((hw | hw) | hw) | hw) | hw) | hw <;> subst hw <;>
        rcases h with h | h <;> exact absurd h (by decide)
  · intro he
    subst he
    rcases h with h | h <;> exact absurd h (by decide)

lemma replaceEsc_id (e : Char) {l : List Char} (h : ∀ c ∈ l, c ≠ '\\') :
    replaceEsc e l = l := by
  induction l with
  | nil => rfl
  | cons c t ih =>
    cases t with
    | nil => rfl
    | cons d t2 =>
      have hc : c ≠ '\\' := h c (by simp)
      have hrec := ih (fun x hx => h x (List.mem_cons_of_mem _ hx))
      simp only [replaceEsc]
      rw [if_neg (by simp [hc])]
      rw [hrec]

lemma collapse_whitespace_fix {s : String}
    (h : ∀ c ∈ s.toList, isWs c = false ∧ c ≠ '\\') :
    collapse_whitespace s = s := by
  unfold collapse_whitespace
  rw [replaceEsc_id 't' (fun c hc => (h c hc).2)]
  rw [replaceEsc_id 'n' (fun c hc => (h c hc).2)]
  rw [replaceEsc_id 'r' (fun c hc => (h c hc).2)]
  rw [collapse_no_ws (fun c hc => (h c hc).1)]
  rw [strip_no_ws (fun c hc => (h c hc).1)]
  cases s with
  | mk data => rfl

lemma dateutil_collapse_fix {b : Bool} {s : String} {d : PDate}
    (h : dateutil_parse b s = some d) : collapse_whitespace s = s := by
  apply collapse_whitespace_fix
  intro c hc
  exact digit_or_sep_props (dateutil_parse_chars h c hc)

/-- Outcome dichotomy of `parse_dates` on a text column: either the column
is returned unchanged with the report untouched, or the threshold was met
and the coerced datetime column is committed. -/
lemma parse_dates_cases (cells : List (Option String)) (r : Report)
    (name : String) :
    parse_dates (Column.textCol cells) r name = (Column.textCol cells, r) ∨
    parse_dates (Column.textCol cells) r name =
      (Column.dateCol ((cells.map (dateStep (force_date name))).map
          dateCellFinal),
       { r with dates_parsed := r.dates_parsed ++
          [(name, countSome ((cells.map (dateStep (force_date name))).map
              dateCellFinal))] }) := by
  simp only [parse_dates]
  repeat' split
  all_goals first
  | exact Or.inl rfl
  | exact Or.inr rfl

/-- C3 counterexample: the non-forced column `when` meets the acceptance
threshold and is adopted, and the cell `hello` — on which both parse
attempts fail — does not keep its original text: the committed column is a
datetime column with that cell missing. -/
theorem date_failed_cell_counterexample :
    force_date "when" = false ∧
    dateutil_parse false (collapse_whitespace "hello") = none ∧
    dateutil_parse true (collapse_whitespace "hello") = none ∧
    parse_dates
        (Column.textCol [some "2024-01-02", some "2024-01-03", some "hello"])
        emptyReport "when" =
      (Column.dateCol [some ⟨2024, 1, 2⟩, some ⟨2024, 1, 3⟩, none],
       { emptyReport with dates_parsed := [("when", 2)] }) := by
  refine ⟨by decide, by decide, by decide, by decide⟩

/-- C3 (amended): whenever a date-candidate column's transform is
committed, every present cell on which both the month-first and the
day-first parse fail ends up missing — in forced and non-forced columns
alike; original text survives only when the whole column is rejected. -/
theorem date_failed_cell_amended (cells : List (Option String)) (r : Report)
    (name : String) (out : List (Option PDate)) (i : Nat) (s : String)
    (hcommit : (parse_dates (Column.textCol cells) r name).1 =
      Column.dateCol out)
    (hcell : cells.get? i = some (some s))
    (h1 : dateutil_parse false (collapse_whitespace s) = none)
    (h2 : dateutil_parse true (collapse_whitespace s) = none) :
    out.get? i = some none := by
  rcases parse_dates_cases cells r name with h | h
  · rw [h] at hcommit
    simp at hcommit
  · rw [h] at hcommit
    simp only [Column.dateCol.injEq] at hcommit
    rw [← hcommit]
    rw [List.get?_map, List.get?_map, hcell]
    simp only [Option.map_some']
    have hstep : dateCellFinal (dateStep (force_date name) (some s)) = none := by
      simp only [dateStep]
      by_cases hnull : isNullToken s = true
      · rw [if_pos hnull]
        rfl
      · rw [if_neg hnull, h1, h2]
        cases hforce : force_date name with
        | true => rfl
        | false =>
          simp only [Bool.false_eq_true, if_false]
          show pd_to_datetime_str s = none
          unfold pd_to_datetime_str
          cases hps : dateutil_parse false s with
          | none => rfl
          | some d =>
            rw [dateutil_collapse_fix hps] at h1
            rw [hps] at h1
            exact Option.noConfusion h1
    rw [hstep]

/-- Witness for the amended C3: the forced column `ship_date` commits with
one parsed cell, and the unparseable cell `hello` is missing in the
committed column. -/
theorem date_failed_cell_amended_witness :
    (parse_dates (Column.textCol [some "03/04/2024", some "hello"])
        emptyReport "ship_date").1 =
      Column.dateCol [some ⟨2024, 3, 4⟩, none] ∧
    ([some (⟨2024, 3, 4⟩ : PDate), none].get? 1 = some none) := by
  have hc : (parse_dates (Column.textCol [some "03/04/2024", some "hello"])
      emptyReport "ship_date").1 = Column.dateCol [some ⟨2024, 3, 4⟩, none] := by
    decide
  exact ⟨hc, date_failed_cell_amended [some "03/04/2024", some "hello"]
    emptyReport "ship_date" [some ⟨2024, 3, 4⟩, none] 1 "hello" hc
    (by decide) (by decide) (by decide)⟩

end CleanData
